import Mathlib

/-!
Verification development for the `spc` translator (Pauli-based computation).

The definitions below are a shallow embedding of the Rust sources
`src/spc/src/pbc.rs` and `src/spc/src/main.rs` into Lean.  Conventions:

* Rust `Vec<Pauli>` (the `Axis` newtype) is embedded as `List Pauli`;
  the length equality that the Rust code enforces with `assert_eq!` is
  carried as an explicit hypothesis in the theorems that need it.
* Rust `u32` counters are embedded as `Nat` (no overflow is reachable in
  the translated code paths: the clock counter only grows by small
  constants per operator).
* Rust `f64` (the payload of `Angle::Arbitrary`) is embedded as `ℚ`.
  Every floating-point value and operation appearing in the verified
  claims (parsing "1.25", division by 2, unary negation) is exact in
  binary floating point, so the rational embedding agrees with `f64`
  on all inputs considered here.
* Rust in-place mutation (`PauliRotation::transform`) is embedded as a
  pure function returning the new rotation; the spec (§9) itself notes
  the two styles are equivalent.
-/

/-- One-qubit Pauli operator (`enum Pauli` in pbc.rs). -/
inductive Pauli where
  | I
  | X
  | Y
  | Z
  deriving DecidableEq, Repr

namespace Pauli

/-- The phase-dropping Pauli product (`impl Mul for Pauli`). -/
def mul : Pauli → Pauli → Pauli
  | I, other => other
  | X, I => X
  | X, X => I
  | X, Y => Z
  | X, Z => Y
  | Y, I => Y
  | Y, X => Z
  | Y, Y => I
  | Y, Z => X
  | Z, I => Z
  | Z, X => Y
  | Z, Y => X
  | Z, Z => I

/-- `Pauli::commutes_with`. -/
def commutes_with (a b : Pauli) : Bool :=
  a = I ∨ b = I ∨ a = b

end Pauli

/-- `enum Sign` in pbc.rs. -/
inductive Sign where
  | plus
  | minus
  deriving DecidableEq, Repr

namespace Sign

/-- `impl Mul<Sign> for Sign`. -/
def mul (a b : Sign) : Sign :=
  if a = b then plus else minus

/-- `impl Neg for Sign`. -/
def neg : Sign → Sign
  | plus => minus
  | minus => plus

end Sign

/-- `enum Mod8` in pbc.rs. -/
inductive Mod8 where
  | zero
  | one
  | two
  | three
  | four
  | five
  | six
  | seven
  deriving DecidableEq, Repr

namespace Mod8

/-- `Mod8::from` (the Rust code reduces its `u32` argument mod 8). -/
def fromU32 (n : Nat) : Mod8 :=
  match n % 8 with
  | 0 => zero
  | 1 => one
  | 2 => two
  | 3 => three
  | 4 => four
  | 5 => five
  | 6 => six
  | _ => seven

/-- `impl Neg for Mod8`. -/
def neg : Mod8 → Mod8
  | zero => zero
  | one => seven
  | two => six
  | three => five
  | four => four
  | five => three
  | six => two
  | seven => one

end Mod8

/-- `enum Angle` in pbc.rs: `PiOver8(n)` is the angle `n·π/8`;
`Arbitrary` carries a literal angle (embedded as `ℚ`, see file header). -/
inductive Angle where
  | piOver8 (n : Mod8)
  | arbitrary (angle : ℚ)
  deriving DecidableEq, Repr

namespace Angle

/-- `impl Neg for Angle`. -/
def neg : Angle → Angle
  | piOver8 n => piOver8 n.neg
  | arbitrary a => arbitrary (-a)

end Angle

/-- `Axis` in pbc.rs is a newtype over `Vec<Pauli>`; we embed it as the
underlying list. -/
abbrev Axis := List Pauli

namespace Axis

/-- `Axis::new_with_pauli index size pauli`: the all-`I` string of the
given size with `pauli` written at `index` (the Rust code asserts
`index < size`). -/
def new_with_pauli (index size : Nat) (pauli : Pauli) : Axis :=
  (List.replicate size Pauli.I).set index pauli

/-- `Axis::commutes_with`: true iff the number of positionwise
anticommuting pairs is even.  The Rust code asserts equal lengths;
theorems about axes of possibly different lengths carry that equality
as a hypothesis. -/
def commutes_with (a b : Axis) : Bool :=
  ((a.zip b).countP fun p => !p.1.commutes_with p.2) % 2 == 0

/-- `Axis::has_only_z_and_i`. -/
def has_only_z_and_i (a : Axis) : Bool :=
  a.all fun p => p = Pauli.Z ∨ p = Pauli.I

end Axis

/-- `struct PauliRotation` in pbc.rs. -/
structure PauliRotation where
  axis : Axis
  angle : Angle
  deriving DecidableEq, Repr

namespace PauliRotation

/-- `PauliRotation::is_clifford`. -/
def is_clifford (r : PauliRotation) : Bool :=
  match r.angle with
  | .piOver8 .zero | .piOver8 .two | .piOver8 .four | .piOver8 .six => true
  | .piOver8 .one | .piOver8 .three | .piOver8 .five | .piOver8 .seven
  | .arbitrary _ => false

/-- The sign accumulated by the per-position loop of
`PauliRotation::transform`: cyclic orientations `(X,Y),(Y,Z),(Z,X)` keep
the sign, anti-cyclic orientations `(Y,X),(Z,Y),(X,Z)` flip it. -/
def transformSign (a b : Axis) (s : Sign) : Sign :=
  (a.zip b).foldl
    (fun s p =>
      match p.1, p.2 with
      | Pauli.Y, Pauli.X | Pauli.Z, Pauli.Y | Pauli.X, Pauli.Z => s.neg
      | _, _ => s)
    s

/-- `PauliRotation::transform` (pure version; Rust mutates `self`).
The Rust function asserts `clifford_rotation.is_clifford()`; on the
remaining (unreachable) angles this embedding returns `r` unchanged. -/
def transform (r clifford_rotation : PauliRotation) : PauliRotation :=
  if r.axis.commutes_with clifford_rotation.axis then r
  else
    match clifford_rotation.angle with
    | .piOver8 .zero => r
    | .piOver8 .four => ⟨r.axis, r.angle.neg⟩
    | .piOver8 .two =>
        let s := transformSign r.axis clifford_rotation.axis Sign.plus
        ⟨r.axis.zipWith Pauli.mul clifford_rotation.axis,
         if s = Sign.minus then r.angle.neg else r.angle⟩
    | .piOver8 .six =>
        let s := transformSign r.axis clifford_rotation.axis Sign.minus
        ⟨r.axis.zipWith Pauli.mul clifford_rotation.axis,
         if s = Sign.minus then r.angle.neg else r.angle⟩
    | _ => r

end PauliRotation

/-- `enum Operator` in pbc.rs. -/
inductive Operator where
  | pauliRotation (r : PauliRotation)
  | measurement (a : Axis)
  deriving DecidableEq, Repr

namespace Operator

/-- `Operator::axis`. -/
def axis : Operator → Axis
  | pauliRotation r => r.axis
  | measurement a => a

/-- `Operator::is_non_clifford_rotation_or_measurement`. -/
def is_non_clifford_rotation_or_measurement : Operator → Bool
  | pauliRotation r => !r.is_clifford
  | measurement _ => true

end Operator

/-- Conjugating `r` by a list of Cliffords in reverse order
(`for c in cliffords.iter().rev() { r.transform(c) }`). -/
def applyCliffordsRev (r : PauliRotation) (cliffords : List PauliRotation) :
    PauliRotation :=
  cliffords.foldr (fun c acc => acc.transform c) r

/-- Conjugating `r` by a list of Cliffords in forward order
(`for c in cliffords.iter() { r.transform(c) }`). -/
def applyCliffordsFwd (r : PauliRotation) (cliffords : List PauliRotation) :
    PauliRotation :=
  cliffords.foldl (fun acc c => acc.transform c) r

/-- The loop body of `spc_translation`, with the pending Clifford list
made explicit (`clifford_rotations` in the Rust code). -/
def spcGo : List Operator → List PauliRotation → List Operator
  | [], _ => []
  | Operator.pauliRotation r :: rest, cliffords =>
      match r.angle with
      | .piOver8 .zero => spcGo rest cliffords
      | .piOver8 .two | .piOver8 .four | .piOver8 .six =>
          spcGo rest (cliffords ++ [r])
      | .piOver8 .three =>
          let cliffords' := cliffords ++ [⟨r.axis, .piOver8 .four⟩]
          Operator.pauliRotation
              (applyCliffordsRev ⟨r.axis, (Angle.piOver8 .one).neg⟩ cliffords')
            :: spcGo rest cliffords'
      | .piOver8 .five =>
          let cliffords' := cliffords ++ [⟨r.axis, .piOver8 .four⟩]
          Operator.pauliRotation
              (applyCliffordsRev ⟨r.axis, Angle.piOver8 .one⟩ cliffords')
            :: spcGo rest cliffords'
      | .piOver8 .one | .piOver8 .seven | .arbitrary _ =>
          Operator.pauliRotation (applyCliffordsRev ⟨r.axis, r.angle⟩ cliffords)
            :: spcGo rest cliffords
  | Operator.measurement a :: rest, cliffords =>
      Operator.measurement
          (applyCliffordsRev ⟨a, Angle.piOver8 .four⟩ cliffords).axis
        :: spcGo rest cliffords

/-- `spc_translation` in pbc.rs. -/
def spc_translation (ops : List Operator) : List Operator :=
  spcGo ops []

/-- The rotation axis built by the odd-`y_count` branch of
`spc_compact_translation_one`: `Z` at every `Y` position, `I` elsewhere. -/
def yMaskAxis (a : Axis) : Axis :=
  a.map fun p =>
    match p with
    | Pauli.Y => Pauli.Z
    | _ => Pauli.I

/-- The first closure of the even-`y_count` branch of
`spc_compact_translation_one`: `Z` at the first `Y` position only
(`first` is the Rust closure's mutable flag). -/
def firstYMask (first : Bool) : Axis → Axis
  | [] => []
  | p :: rest =>
    match p with
    | Pauli.Y => (if first then Pauli.Z else Pauli.I) :: firstYMask false rest
    | _ => Pauli.I :: firstYMask first rest

/-- The second closure of the even-`y_count` branch of
`spc_compact_translation_one`: `I` at the first `Y` position, `Z` at the
remaining `Y` positions. -/
def restYMask (first : Bool) : Axis → Axis
  | [] => []
  | p :: rest =>
    match p with
    | Pauli.Y => (if first then Pauli.I else Pauli.Z) :: restYMask false rest
    | _ => Pauli.I :: restYMask first rest

/-- The three single-qubit Cliffords `Z@i, X@i, Z@i` (each `PiOver8(2)`)
pushed by the position loop of `spc_compact_translation_one`. -/
def xzTriple (i n : Nat) : List PauliRotation :=
  [⟨Axis.new_with_pauli i n Pauli.Z, .piOver8 .two⟩,
   ⟨Axis.new_with_pauli i n Pauli.X, .piOver8 .two⟩,
   ⟨Axis.new_with_pauli i n Pauli.Z, .piOver8 .two⟩]

/-- The position loop of `spc_compact_translation_one`
(`for i in 0..axis.len()` with `continue` on odd `i` and `break` at
`i == axis.len() - 1`).  Returns the pushed Cliffords together with the
`has_xy` and `needs_two_rounds` flags. -/
def sctoLoop (a : Axis) (i : Nat) : List PauliRotation × Bool × Bool :=
  if i < a.length then
    if i % 2 = 1 then sctoLoop a (i + 1)
    else
      let x := a.getD i Pauli.I
      let a_xy : Bool := x = Pauli.X ∨ x = Pauli.Y
      let cls1 := if a_xy then xzTriple i a.length else []
      if i = a.length - 1 then (cls1, a_xy, false)
      else
        let y := a.getD (i + 1) Pauli.I
        let b_xy : Bool := y = Pauli.X ∨ y = Pauli.Y
        let cls2 := if b_xy then xzTriple (i + 1) a.length else []
        let rest := sctoLoop a (i + 1)
        let ntr : Bool := if i = 0 then false else a_xy && b_xy
        (cls1 ++ cls2 ++ rest.1, (a_xy || b_xy) || rest.2.1, ntr || rest.2.2)
  else ([], false, false)
termination_by a.length - i

/-- The Y-elimination stage of `spc_compact_translation_one`: its
Cliffords and its clock charge, as a function of the axis. -/
def yElim (axis : Axis) : List PauliRotation × Nat :=
  let y_count := axis.countP fun p => p = Pauli.Y
  if y_count = 0 then ([], 0)
  else if y_count % 2 = 1 then ([⟨yMaskAxis axis, .piOver8 .two⟩], 1)
  else
    ([⟨firstYMask true axis, .piOver8 .two⟩,
      ⟨restYMask true axis, .piOver8 .two⟩], 2)

/-- `spc_compact_translation_one` in pbc.rs: the Cliffords needed to
bring `op`'s axis to `Z/I` form, and the number of additional clocks. -/
def spc_compact_translation_one (op : Operator) : List PauliRotation × Nat :=
  let axis := op.axis
  let first_part := yElim axis
  let loop := sctoLoop axis 0
  (first_part.1 ++ loop.1,
   first_part.2 + if loop.2.2 then 6 else if loop.2.1 then 3 else 0)

/-- The loop body of `spc_compact_translation`, with the accumulated
Clifford list made explicit. -/
def compactGo : List Operator → List PauliRotation → List (Operator × Nat)
  | [], _ => []
  | op :: rest, cliffords =>
      let op' :=
        match op with
        | Operator.pauliRotation r =>
            Operator.pauliRotation (applyCliffordsFwd r cliffords)
        | Operator.measurement a =>
            Operator.measurement
              (applyCliffordsFwd ⟨a, Angle.piOver8 .four⟩ cliffords).axis
      let p := spc_compact_translation_one op'
      (op', p.2) :: compactGo rest (cliffords ++ p.1)

/-- `spc_compact_translation` in pbc.rs. -/
def spc_compact_translation (ops : List Operator) : List (Operator × Nat) :=
  compactGo (spc_translation ops) []

/-!
Embedding of `src/spc/src/main.rs`.

The AST types (`qasm::AstNode`, `qasm::Argument`) come from an external
crate; they are embedded here with exactly the constructors and payloads
that `main.rs` inspects (payloads the code matches with `..` and never
reads are omitted).  Rust `i32` payloads (register sizes, qubit indices)
are embedded as `Int` since the code checks them for negativity.
-/

/-- `qasm::Argument` as used by main.rs: a register name and an index. -/
inductive Argument where
  | qubit (name : String) (index : Int)
  deriving DecidableEq, Repr

/-- `qasm::AstNode` as matched by `extract` in main.rs. -/
inductive AstNode where
  | qreg (name : String) (num_qubits : Int)
  | creg (name : String) (num_bits : Int)
  | barrier
  | reset
  | measure (arg1 arg2 : Argument)
  | applyGate (name : String) (args : List Argument) (angle_args : List String)
  | opaqueNode
  | gate
  | ifNode
  deriving DecidableEq, Repr

/-- `struct Registers` in main.rs (sizes are `u32` in Rust, `Nat` here). -/
structure Registers where
  qregs : List (String × Nat)
  cregs : List (String × Nat)
  deriving DecidableEq, Repr

namespace Registers

/-- `Registers::new`. -/
def new : Registers := ⟨[], []⟩

/-- `Registers::is_qreg`. -/
def is_qreg (regs : Registers) (name : String) : Bool :=
  regs.qregs.any fun p => p.1 = name

/-- `Registers::is_creg`. -/
def is_creg (regs : Registers) (name : String) : Bool :=
  regs.cregs.any fun p => p.1 = name

/-- `Registers::add_qreg` (the Rust asserts on duplicate names hold at
every call site, which checks first). -/
def add_qreg (regs : Registers) (name : String) (size : Nat) : Registers :=
  ⟨regs.qregs ++ [(name, size)], regs.cregs⟩

/-- `Registers::add_creg`. -/
def add_creg (regs : Registers) (name : String) (size : Nat) : Registers :=
  ⟨regs.qregs, regs.cregs ++ [(name, size)]⟩

/-- `Registers::qubit_index`: walk the declarations accumulating offsets. -/
def qubit_index (regs : Registers) (name : String) (index : Nat) : Option Nat :=
  go regs.qregs 0
where
  go : List (String × Nat) → Nat → Option Nat
    | [], _ => none
    | (n, size) :: rest, acc =>
        if n = name then (if index < size then some (acc + index) else none)
        else go rest (acc + size)

/-- `Registers::classical_bit_index`. -/
def classical_bit_index (regs : Registers) (name : String) (index : Nat) :
    Option Nat :=
  go regs.cregs 0
where
  go : List (String × Nat) → Nat → Option Nat
    | [], _ => none
    | (n, size) :: rest, acc =>
        if n = name then (if index < size then some (acc + index) else none)
        else go rest (acc + size)

/-- `Registers::num_qubits`. -/
def num_qubits (regs : Registers) : Nat :=
  (regs.qregs.map fun p => p.2).sum

end Registers

/-- `extract_qubit` in main.rs.  Diagnostics are collapsed to `none`
(the Rust error strings are only printed).  The Rust code indexes
`args[args_index]` after its callers have checked the argument count;
an out-of-range index is mapped to `none` here. -/
def extract_qubit (args : List Argument) (args_index : Nat)
    (registers : Registers) : Option Nat :=
  match args.get? args_index with
  | some (Argument.qubit qubit index) =>
      if index < 0 then none
      else registers.qubit_index qubit index.toNat
  | none => none

/-- `extract_classical_bit` in main.rs. -/
def extract_classical_bit (args : List Argument) (args_index : Nat)
    (registers : Registers) : Option Nat :=
  match args.get? args_index with
  | some (Argument.qubit qubit index) =>
      if index < 0 then none
      else registers.classical_bit_index qubit index.toNat
  | none => none

/-- Drop leading ASCII spaces (the only whitespace appearing in the
angle strings handled by `extract_angle`). -/
def dropSpaces (l : List Char) : List Char :=
  l.dropWhile fun c => c = ' '

/-- Rust `str::trim`, restricted to ASCII spaces. -/
def trimSpaces (l : List Char) : List Char :=
  ((dropSpaces l).reverse.dropWhile fun c => c = ' ').reverse

/-- Numeric value of a digit run. -/
def natOfDigits (l : List Char) : Nat :=
  l.foldl (fun n c => 10 * n + (c.toNat - '0'.toNat)) 0

/-- Take a nonempty run of decimal digits, returning it and the rest. -/
def takeDigits (l : List Char) : Option (List Char × List Char) :=
  let ds := l.takeWhile Char.isDigit
  if ds.isEmpty then none else some (ds, l.dropWhile Char.isDigit)

/-- The first regular expression of `extract_angle`:
`^ *(-)? *((n) *\*)? *pi *(/ *(m))? *$`, determinized (after the
optional sign, a digit commits to the `n *` group because `pi` cannot
start with a digit).  Returns `(has_minus, n, m)` with the Rust
defaults `n = 1`, `m = 1`. -/
def piPattern (l : List Char) : Option (Bool × Nat × Nat) := do
  let l := dropSpaces l
  let (hasMinus, l) :=
    match l with
    | '-' :: rest => (true, rest)
    | _ => (false, l)
  let l := dropSpaces l
  let (n, l) ← do
    match l with
    | c :: _ =>
        if c.isDigit then do
          let (ds, l) ← takeDigits l
          let l := dropSpaces l
          match l with
          | '*' :: rest => pure (natOfDigits ds, dropSpaces rest)
          | _ => none
        else pure (1, l)
    | [] => none
  match l with
  | 'p' :: 'i' :: rest =>
      let l := dropSpaces rest
      match l with
      | '/' :: rest =>
          let l := dropSpaces rest
          let (ds, l) ← takeDigits l
          if dropSpaces l = [] then pure (hasMinus, n, natOfDigits ds)
          else none
      | [] => pure (hasMinus, n, 1)
      | _ => none
  | _ => none

/-- The second regular expression of `extract_angle`:
`^ *(-) *(D.D) *$` (mandatory minus, float literal).  Returns the
(unsigned) literal value as a rational. -/
def floatPattern (l : List Char) : Option ℚ := do
  let l := dropSpaces l
  let l ← match l with
    | '-' :: rest => pure rest
    | _ => none
  let l := dropSpaces l
  let (intDigits, l) ← takeDigits l
  let l ← match l with
    | '.' :: rest => pure rest
    | _ => none
  let (fracDigits, l) ← takeDigits l
  if dropSpaces l = [] then
    pure ((natOfDigits intDigits : ℚ) +
      (natOfDigits fracDigits : ℚ) / ((10 : ℚ) ^ fracDigits.length))
  else none

/-- `extract_angle` in main.rs.  Error diagnostics are collapsed to
`none`; the `f64` arithmetic (`sign * a / 2.0`) is exact for the dyadic
values exercised here and is carried out in `ℚ`. -/
def extract_angle (s : String) : Option Angle :=
  let l := s.data
  if trimSpaces l = [] then none
  else if trimSpaces l = ['0'] then some (Angle.piOver8 .zero)
  else
    match piPattern l with
    | some (hasMinus, n, m) =>
        let n_with_pi_over_8 : Option Nat :=
          match m with
          | 1 => some (4 * n % 8)
          | 2 => some (2 * n % 8)
          | 4 => some (n % 8)
          | _ => none
        match n_with_pi_over_8 with
        | some k =>
            if hasMinus then some (Angle.piOver8 (Mod8.fromU32 k).neg)
            else some (Angle.piOver8 (Mod8.fromU32 k))
        | none => none
    | none =>
        match floatPattern l with
        | some a => some (Angle.arbitrary (-1 * a / 2))
        | none => none

/-- `translate_gate` in main.rs.  Instead of pushing onto a mutable
output vector, this embedding returns the operators to append (every
branch of the Rust function validates before its first push, so the two
styles agree).  Diagnostics are collapsed to `none`. -/
def translate_gate (name : String) (args : List Argument)
    (angle_args : List String) (registers : Registers) :
    Option (List Operator) :=
  let num_qubits := registers.num_qubits
  if name = "x" ∨ name = "y" ∨ name = "z" then do
    if args.length ≠ 1 then none
    else if ¬angle_args.isEmpty then none
    else do
      let pauli := if name = "x" then Pauli.X
        else if name = "y" then Pauli.Y else Pauli.Z
      let q ← extract_qubit args 0 registers
      pure [Operator.pauliRotation
        ⟨Axis.new_with_pauli q num_qubits pauli, Angle.piOver8 .four⟩]
  else if name = "rz" then do
    if args.length ≠ 1 then none
    else if angle_args.length ≠ 1 then none
    else do
      let q ← extract_qubit args 0 registers
      let angle ← extract_angle (angle_args.getD 0 "")
      if angle ≠ Angle.piOver8 .zero then
        pure [Operator.pauliRotation
          ⟨Axis.new_with_pauli q num_qubits Pauli.Z, angle⟩]
      else pure []
  else if name = "ry" then do
    if args.length ≠ 1 then none
    else if angle_args.length ≠ 1 then none
    else do
      let q ← extract_qubit args 0 registers
      let angle ← extract_angle (angle_args.getD 0 "")
      if angle ≠ Angle.piOver8 .zero then
        pure [Operator.pauliRotation
          ⟨Axis.new_with_pauli q num_qubits Pauli.Y, angle⟩]
      else pure []
  else if name = "sx" then do
    if args.length ≠ 1 then none
    else if ¬angle_args.isEmpty then none
    else do
      let q ← extract_qubit args 0 registers
      pure [Operator.pauliRotation
        ⟨Axis.new_with_pauli q num_qubits Pauli.X, Angle.piOver8 .two⟩]
  else if name = "h" then do
    if args.length ≠ 1 then none
    else if ¬angle_args.isEmpty then none
    else do
      let q ← extract_qubit args 0 registers
      pure [Operator.pauliRotation
          ⟨Axis.new_with_pauli q num_qubits Pauli.Z, Angle.piOver8 .two⟩,
        Operator.pauliRotation
          ⟨Axis.new_with_pauli q num_qubits Pauli.X, Angle.piOver8 .two⟩,
        Operator.pauliRotation
          ⟨Axis.new_with_pauli q num_qubits Pauli.Z, Angle.piOver8 .two⟩]
  else if name = "cx" then do
    if args.length ≠ 2 then none
    else if ¬angle_args.isEmpty then none
    else do
      let control ← extract_qubit args 0 registers
      let target ← extract_qubit args 1 registers
      if control = target then none
      else
        pure [Operator.pauliRotation
            ⟨Axis.new_with_pauli control num_qubits Pauli.Z,
             (Angle.piOver8 .two).neg⟩,
          Operator.pauliRotation
            ⟨Axis.new_with_pauli target num_qubits Pauli.X,
             (Angle.piOver8 .two).neg⟩,
          Operator.pauliRotation
            ⟨((List.replicate num_qubits Pauli.I).set control Pauli.Z).set
               target Pauli.X, Angle.piOver8 .two⟩]
  else if name = "measure" then do
    if args.length ≠ 2 then none
    else if ¬angle_args.isEmpty then none
    else do
      let q ← extract_qubit args 0 registers
      let _ ← extract_classical_bit args 1 registers
      pure [Operator.measurement
        ((List.replicate num_qubits Pauli.I).set q Pauli.Z)]
  else none

/-- The unsupported-node check at the top of `extract` in main.rs:
the predicate of the `nodes.iter().all(..)` call. -/
def nodeSupported : AstNode → Bool
  | AstNode.qreg _ _ => true
  | AstNode.creg _ _ => true
  | AstNode.barrier => false
  | AstNode.reset => true
  | AstNode.measure _ _ => true
  | AstNode.applyGate _ _ _ => true
  | AstNode.opaqueNode => false
  | AstNode.gate => true
  | AstNode.ifNode => false

/-- The node filter of `extract` in main.rs, applied after the
unsupported-node check.  The `Barrier`/`Opaque` arms of the Rust match
are `unreachable!()` there; they are mapped to `false` (dropped), which
is never exercised because the check has already rejected them. -/
def nodeKept : AstNode → Bool
  | AstNode.qreg _ _ => true
  | AstNode.creg _ _ => true
  | AstNode.reset => true
  | AstNode.measure _ _ => true
  | AstNode.applyGate _ _ _ => true
  | AstNode.gate => false
  | AstNode.ifNode => false
  | _ => false

/-- The first two stages of `extract`: abort (printing a diagnostic and
returning `None`) if any node fails the unsupported-node check,
otherwise keep the filtered node stream. -/
def extract_check_and_filter (nodes : List AstNode) : Option (List AstNode) :=
  if nodes.all nodeSupported then some (nodes.filter nodeKept) else none

/-- The register-construction loop of `extract`. -/
def buildRegisters : List AstNode → Registers → Option Registers
  | [], regs => some regs
  | node :: rest, regs =>
      match node with
      | AstNode.qreg name num_qubits =>
          if regs.is_qreg name ∨ regs.is_creg name then none
          else if num_qubits < 0 then none
          else buildRegisters rest (regs.add_qreg name num_qubits.toNat)
      | AstNode.creg name num_bits =>
          if regs.is_qreg name ∨ regs.is_creg name then none
          else if num_bits < 0 then none
          else buildRegisters rest (regs.add_creg name num_bits.toNat)
      | _ => buildRegisters rest regs

/-- The operator-construction loop of `extract`. -/
def buildOpsLoop (registers : Registers) :
    List AstNode → List Operator → Option (List Operator)
  | [], ops => some ops
  | node :: rest, ops =>
      match node with
      | AstNode.applyGate name args angle_args =>
          match translate_gate name args angle_args registers with
          | some new_ops => buildOpsLoop registers rest (ops ++ new_ops)
          | none => none
      | AstNode.measure arg1 arg2 =>
          match translate_gate "measure" [arg1, arg2] [] registers with
          | some new_ops => buildOpsLoop registers rest (ops ++ new_ops)
          | none => none
      | _ => buildOpsLoop registers rest ops

/-- The operator-producing prefix of `extract`: unsupported-node check,
node filter, register construction and gate decomposition.  `none`
models every `println` + `return None` diagnostic path. -/
def buildOps (nodes : List AstNode) : Option (List Operator) :=
  match extract_check_and_filter nodes with
  | none => none
  | some nodes =>
      match buildRegisters nodes Registers.new with
      | none => none
      | some registers => buildOpsLoop registers nodes []

/-- How the tail of `extract` in main.rs terminates, as observable
behaviour: an early diagnostic return, the panic at
`let num_qubits = match &result[0]` when the SPC result is empty, or
normal completion (carrying the qubit count it derives). -/
inductive ExtractOutcome where
  | aborted
  | panicked
  | completed (num_qubits : Nat)
  deriving DecidableEq, Repr

/-- `extract` in main.rs, up to and including the derivation of
`num_qubits` from `result[0]` (everything after that point only prints).
Indexing `result[0]` on an empty vector is a Rust panic, embedded as the
`panicked` outcome. -/
def extract (nodes : List AstNode) : ExtractOutcome :=
  match buildOps nodes with
  | none => ExtractOutcome.aborted
  | some ops =>
      match spc_translation ops with
      | [] => ExtractOutcome.panicked
      | op :: _ => ExtractOutcome.completed op.axis.length

/-!  Theorems.  -/

/-- `transform` either keeps the angle or negates it. -/
theorem transform_angle_cases (r c : PauliRotation) :
    (r.transform c).angle = r.angle ∨ (r.transform c).angle = r.angle.neg := by
  unfold PauliRotation.transform
  split
  · exact Or.inl rfl
  · split
    · exact Or.inl rfl
    · exact Or.inr rfl
    · dsimp only
      split
      · exact Or.inr rfl
      · exact Or.inl rfl
    · dsimp only
      split
      · exact Or.inr rfl
      · exact Or.inl rfl
    · exact Or.inl rfl

/-- `is_clifford` only depends on the angle. -/
theorem is_clifford_congr {r s : PauliRotation} (h : r.angle = s.angle) :
    r.is_clifford = s.is_clifford := by
  unfold PauliRotation.is_clifford
  rw [h]

/-- Negating the angle preserves `is_clifford`. -/
theorem is_clifford_neg (r : PauliRotation) :
    (PauliRotation.mk r.axis r.angle.neg).is_clifford = r.is_clifford := by
  rcases r with ⟨a, n | q⟩
  · cases n <;> rfl
  · rfl

/-- `transform` preserves `is_clifford`. -/
theorem transform_is_clifford (r c : PauliRotation) :
    (r.transform c).is_clifford = r.is_clifford := by
  rcases transform_angle_cases r c with h | h
  · exact is_clifford_congr h
  · have h' : (r.transform c).angle =
        (PauliRotation.mk r.axis r.angle.neg).angle := h
    rw [is_clifford_congr h', is_clifford_neg]

/-- Conjugation by a Clifford list preserves `is_clifford`. -/
theorem applyCliffordsRev_is_clifford (r : PauliRotation)
    (cliffords : List PauliRotation) :
    (applyCliffordsRev r cliffords).is_clifford = r.is_clifford := by
  induction cliffords with
  | nil => rfl
  | cons c cs ih =>
      simp only [applyCliffordsRev, List.foldr_cons] at *
      rw [transform_is_clifford, ih]

/-- Every rotation emitted by the `spc_translation` loop is
non-Clifford, for any pending Clifford list. -/
theorem spcGo_no_clifford (ops : List Operator)
    (cliffords : List PauliRotation) (r' : PauliRotation)
    (hmem : Operator.pauliRotation r' ∈ spcGo ops cliffords) :
    r'.is_clifford = false := by
  induction ops generalizing cliffords with
  | nil => simp [spcGo] at hmem
  | cons op rest ih =>
      rcases op with rot | a
      · rcases rot with ⟨ax, n | q⟩
        · cases n <;> simp only [spcGo, List.mem_cons] at hmem
          case zero => exact ih _ hmem
          case two => exact ih _ hmem
          case four => exact ih _ hmem
          case six => exact ih _ hmem
          case one =>
            rcases hmem with h | h
            · cases h
              rw [applyCliffordsRev_is_clifford]; rfl
            · exact ih _ h
          case three =>
            rcases hmem with h | h
            · cases h
              rw [applyCliffordsRev_is_clifford]; rfl
            · exact ih _ h
          case five =>
            rcases hmem with h | h
            · cases h
              rw [applyCliffordsRev_is_clifford]; rfl
            · exact ih _ h
          case seven =>
            rcases hmem with h | h
            · cases h
              rw [applyCliffordsRev_is_clifford]; rfl
            · exact ih _ h
        · simp only [spcGo, List.mem_cons] at hmem
          rcases hmem with h | h
          · cases h
            rw [applyCliffordsRev_is_clifford]; rfl
          · exact ih _ h
      · simp only [spcGo, List.mem_cons] at hmem
        rcases hmem with h | h
        · cases h
        · exact ih _ h

/-- C1: for every input list of Operators, every rotation in the list
returned by `spc_translation` is non-Clifford (no emitted
`PauliRotation` satisfies `is_clifford`; its angle is `PiOver8(1|3|5|7)`
or `Arbitrary`). -/
theorem spc_translation_no_clifford (ops : List Operator)
    (r' : PauliRotation)
    (hmem : Operator.pauliRotation r' ∈ spc_translation ops) :
    r'.is_clifford = false :=
  spcGo_no_clifford ops [] r' hmem

/-- Witness for C1 at a concrete input. -/
theorem spc_translation_no_clifford_witness :
    (⟨[Pauli.X], Angle.piOver8 .one⟩ : PauliRotation).is_clifford = false :=
  spc_translation_no_clifford
    [Operator.pauliRotation ⟨[Pauli.X], Angle.piOver8 .one⟩]
    ⟨[Pauli.X], Angle.piOver8 .one⟩ (by decide)

/-- C3: conjugating a rotation whose axis anticommutes with the axis of
a `PiOver8(4)` (π) Clifford of equal length negates the angle and
leaves the axis unchanged. -/
theorem transform_pi_clifford (r c : PauliRotation)
    (hlen : r.axis.length = c.axis.length)
    (hanti : r.axis.commutes_with c.axis = false)
    (hangle : c.angle = Angle.piOver8 .four) :
    (r.transform c).angle = r.angle.neg ∧ (r.transform c).axis = r.axis := by
  simp [PauliRotation.transform, hanti, hangle]

/-- Witness for C3 at a concrete input. -/
theorem transform_pi_clifford_witness :
    ((⟨[Pauli.X], Angle.piOver8 .one⟩ : PauliRotation).transform
        ⟨[Pauli.Z], Angle.piOver8 .four⟩).angle = (Angle.piOver8 .one).neg ∧
    ((⟨[Pauli.X], Angle.piOver8 .one⟩ : PauliRotation).transform
        ⟨[Pauli.Z], Angle.piOver8 .four⟩).axis = [Pauli.X] :=
  transform_pi_clifford _ _ rfl (by decide) rfl

/-- The operator count emitted by the `spc_translation` loop does not
depend on the pending Clifford list: each non-zero non-Clifford
rotation and each measurement contributes exactly one operator. -/
theorem spcGo_length (ops : List Operator) (cliffords : List PauliRotation) :
    (spcGo ops cliffords).length =
      ops.countP fun op =>
        match op with
        | Operator.pauliRotation r =>
            decide (r.angle ≠ Angle.piOver8 .zero) && !r.is_clifford
        | Operator.measurement _ => true := by
  induction ops generalizing cliffords with
  | nil => rfl
  | cons op rest ih =>
      rcases op with rot | a
      · rcases rot with ⟨ax, n | q⟩
        · cases n <;>
            simp [spcGo, List.countP_cons, ih, PauliRotation.is_clifford]
        · simp [spcGo, List.countP_cons, ih, PauliRotation.is_clifford]
      · simp [spcGo, List.countP_cons, ih]

/-- C4: the length of the `spc_translation` output equals the number of
input rotations whose angle is neither `PiOver8(0)` nor Clifford, plus
the number of input measurements. -/
theorem spc_translation_length (ops : List Operator) :
    (spc_translation ops).length =
      ops.countP fun op =>
        match op with
        | Operator.pauliRotation r =>
            decide (r.angle ≠ Angle.piOver8 .zero) && !r.is_clifford
        | Operator.measurement _ => true :=
  spcGo_length ops []

/-- C5: the CX-then-T scenario.  `spc_translation` applied to
`[Rot(IZII,6), Rot(IIXI,6), Rot(IZXI,2), Rot(ZIII,1), Rot(IIZI,1),
Meas(IIZI)]` (6 = −2 mod 8) returns exactly
`[Rot(ZIII,1), Rot(IZZI,1), Meas(IZZI)]`. -/
theorem spc_translation_cx_scenario :
    spc_translation
      [Operator.pauliRotation
         ⟨[Pauli.I, Pauli.Z, Pauli.I, Pauli.I], Angle.piOver8 .six⟩,
       Operator.pauliRotation
         ⟨[Pauli.I, Pauli.I, Pauli.X, Pauli.I], Angle.piOver8 .six⟩,
       Operator.pauliRotation
         ⟨[Pauli.I, Pauli.Z, Pauli.X, Pauli.I], Angle.piOver8 .two⟩,
       Operator.pauliRotation
         ⟨[Pauli.Z, Pauli.I, Pauli.I, Pauli.I], Angle.piOver8 .one⟩,
       Operator.pauliRotation
         ⟨[Pauli.I, Pauli.I, Pauli.Z, Pauli.I], Angle.piOver8 .one⟩,
       Operator.measurement [Pauli.I, Pauli.I, Pauli.Z, Pauli.I]] =
      [Operator.pauliRotation
         ⟨[Pauli.Z, Pauli.I, Pauli.I, Pauli.I], Angle.piOver8 .one⟩,
       Operator.pauliRotation
         ⟨[Pauli.I, Pauli.Z, Pauli.Z, Pauli.I], Angle.piOver8 .one⟩,
       Operator.measurement [Pauli.I, Pauli.Z, Pauli.Z, Pauli.I]] := by
  decide

/-- Counterexample to C7 as stated: `X·Y = Y·X` holds in the
phase-dropping product (both equal `Z`), yet `commutes_with(X,Y)` is
false, so "`P·Q = Q·P` iff `commutes_with(P,Q)`" fails at `(X,Y)`. -/
theorem pauli_mul_comm_iff_counterexample :
    Pauli.mul Pauli.X Pauli.Y = Pauli.mul Pauli.Y Pauli.X ∧
    Pauli.commutes_with Pauli.X Pauli.Y = false := by
  decide

/-- C7 amended: the implementation's phase-dropping product is
commutative for all Paulis, and `commutes_with(P,Q)` holds iff
`P = I ∨ Q = I ∨ P = Q` — so product-commutation does not characterise
`commutes_with`. -/
theorem pauli_mul_comm_and_commutes_with (P Q : Pauli) :
    Pauli.mul P Q = Pauli.mul Q P ∧
    (Pauli.commutes_with P Q = true ↔ P = Pauli.I ∨ Q = Pauli.I ∨ P = Q) := by
  cases P <;> cases Q <;> decide

/-- C8: the boundary behaviour of `extract_angle` on the eight inputs
from the spec (`-0.625` is the rational `-5/8`). -/
theorem extract_angle_boundaries :
    extract_angle " pi " = some (Angle.piOver8 .four) ∧
    extract_angle " pi / 2 " = some (Angle.piOver8 .two) ∧
    extract_angle " pi / 4 " = some (Angle.piOver8 .one) ∧
    extract_angle " 3 * pi / 4 " = some (Angle.piOver8 .three) ∧
    extract_angle " - 3 * pi / 4 " = some (Angle.piOver8 .five) ∧
    extract_angle "-1.25" = some (Angle.arbitrary (-(5 : ℚ) / 8)) ∧
    extract_angle " pi / 8 " = none ∧
    extract_angle "" = none := by
  refine ⟨rfl, rfl, rfl, rfl, rfl, ?_, rfl, rfl⟩
  show some (Angle.arbitrary (-1 * (1 + 25 / 10 ^ 2) / 2)) = _
  norm_num

/-- The `a == Pauli::X || a == Pauli::Y` test of the position loop. -/
def isXY (p : Pauli) : Bool := p = Pauli.X ∨ p = Pauli.Y

theorem isXY_eq (p : Pauli) :
    isXY p = (decide (p = Pauli.X) || decide (p = Pauli.Y)) := by
  cases p <;> rfl

/-- The pair condition of the claim: some pair `(j, j+1)` with `j` even
and `j ≥ 2` carries X or Y at both positions. -/
def needs_two_rounds_pairs (a : Axis) : Prop :=
  ∃ j, 2 ≤ j ∧ j % 2 = 0 ∧ j + 1 < a.length ∧
    isXY (a.getD j Pauli.I) = true ∧ isXY (a.getD (j + 1) Pauli.I) = true

instance needs_two_rounds_pairs_dec (a : Axis) :
    Decidable (needs_two_rounds_pairs a) :=
  decidable_of_iff
    ((List.range a.length).any fun j =>
      decide (2 ≤ j) && decide (j % 2 = 0) && decide (j + 1 < a.length) &&
        isXY (a.getD j Pauli.I) && isXY (a.getD (j + 1) Pauli.I) = true) (by
    simp only [needs_two_rounds_pairs, List.any_eq_true, List.mem_range,
      Bool.and_eq_true, decide_eq_true_eq]
    constructor
    · rintro ⟨j, _, ⟨⟨⟨h1, h2⟩, h3⟩, h4⟩, h5⟩
      exact ⟨j, h1, h2, h3, h4, h5⟩
    · rintro ⟨j, h1, h2, h3, h4, h5⟩
      exact ⟨j, by omega, ⟨⟨⟨h1, h2⟩, h3⟩, h4⟩, h5⟩)

/-- An odd loop index is skipped (`continue`). -/
theorem sctoLoop_odd (a : Axis) (i : Nat) (h : i % 2 = 1) :
    sctoLoop a i = sctoLoop a (i + 1) := by
  rw [sctoLoop]
  by_cases hlt : i < a.length
  · simp [hlt, h]
  · have h2 : ¬ (i + 1 < a.length) := by omega
    rw [sctoLoop]
    simp [hlt, h2]

/-- The loop returns the empty state once the index passes the end. -/
theorem sctoLoop_past_end (a : Axis) (i : Nat) (h : ¬ i < a.length) :
    sctoLoop a i = ([], false, false) := by
  rw [sctoLoop]
  simp [h]

/-- Characterisation of the two flags computed by the position loop,
for an even starting index: `has_xy` says some position `≥ i` holds an
X or Y; `needs_two_rounds` says some even pair `(j, j+1)` with `j ≥ i`
and `j ≥ 2` holds X/Y at both positions. -/
theorem sctoLoop_flags (a : Axis) :
    ∀ k i, a.length - i ≤ k → i % 2 = 0 →
    (sctoLoop a i).2.1 = (a.drop i).any isXY ∧
    ((sctoLoop a i).2.2 = true ↔ ∃ j, i ≤ j ∧ 2 ≤ j ∧ j % 2 = 0 ∧
      j + 1 < a.length ∧ isXY (a.getD j Pauli.I) = true ∧
      isXY (a.getD (j + 1) Pauli.I) = true) := by
  intro k
  induction k with
  | zero =>
      intro i hk hi
      have hge : ¬ i < a.length := by omega
      have hdrop : a.drop i = [] := List.drop_eq_nil_of_le (by omega)
      rw [sctoLoop_past_end a i hge, hdrop]
      refine ⟨rfl, ?_⟩
      simp only [List.any_nil]
      constructor
      · intro h
        cases h
      · rintro ⟨j, h1, _, _, h4, _⟩
        omega
  | succ k ih =>
      intro i hk hi
      by_cases hlt : i < a.length
      · have hodd : ¬ i % 2 = 1 := by omega
        rw [sctoLoop]
        simp only [hlt, if_true, hodd, if_false]
        by_cases hbreak : i = a.length - 1
        · simp only [if_pos hbreak]
          have hdrop : a.drop i = [a.getD i Pauli.I] := by
            rw [List.drop_eq_getElem_cons hlt, List.getD_eq_getElem _ _ hlt]
            have h2 : a.drop (i + 1) = [] := List.drop_eq_nil_of_le (by omega)
            rw [h2]
          refine ⟨?_, ?_⟩
          · rw [hdrop]
            simp [isXY_eq]
          · constructor
            · intro h
              cases h
            · rintro ⟨j, h1, h2, h3, h4, h5⟩
              omega
        · simp only [if_neg hbreak]
          have hlt1 : i + 1 < a.length := by omega
          have heq : sctoLoop a (i + 1) = sctoLoop a (i + 2) :=
            sctoLoop_odd a (i + 1) (by omega)
          have hih := ih (i + 2) (by omega) (by omega)
          have hdropi : a.drop i =
              a.getD i Pauli.I :: a.getD (i + 1) Pauli.I :: a.drop (i + 2) := by
            rw [List.drop_eq_getElem_cons hlt, List.drop_eq_getElem_cons hlt1,
              List.getD_eq_getElem _ _ hlt, List.getD_eq_getElem _ _ hlt1]
          refine ⟨?_, ?_⟩
          · rw [heq, hih.1, hdropi]
            simp [isXY_eq, Bool.or_assoc]
          · rw [heq]
            simp only [Bool.or_eq_true, hih.2]
            constructor
            · rintro (hh | ⟨j, h1, h2, h3, h4, h5, h6⟩)
              · by_cases hz : i = 0
                · simp [hz] at hh
                · simp only [if_neg hz, Bool.and_eq_true] at hh
                  refine ⟨i, le_refl i, by omega, hi, hlt1, ?_, ?_⟩
                  · rw [isXY_eq]
                    simp only [Bool.or_eq_true, decide_eq_true_eq]
                    simpa using hh.1
                  · rw [isXY_eq]
                    simp only [Bool.or_eq_true, decide_eq_true_eq]
                    simpa using hh.2
              · exact ⟨j, by omega, h2, h3, h4, h5, h6⟩
            · rintro ⟨j, h1, h2, h3, h4, h5, h6⟩
              rcases Nat.lt_or_ge j (i + 2) with hj | hj
              · have hji : j = i := by omega
                subst hji
                left
                have hz : ¬ j = 0 := by omega
                rw [isXY_eq] at h5 h6
                simp only [if_neg hz, Bool.and_eq_true]
                constructor
                · simpa using h5
                · simpa using h6
              · exact Or.inr ⟨j, hj, h2, h3, h4, h5, h6⟩
      · have hdrop : a.drop i = [] := List.drop_eq_nil_of_le (by omega)
        rw [sctoLoop_past_end a i hlt, hdrop]
        refine ⟨rfl, ?_⟩
        simp only [List.any_nil]
        constructor
        · intro h
          cases h
        · rintro ⟨j, h1, _, _, h4, _⟩
          omega

/-- C6: the clock count of `spc_compact_translation_one` is the sum of a
Y-elimination charge (0 if the axis has no Y, 1 if the Y-count is odd,
2 if it is even and positive) and an XZ-collapse charge (6 if some pair
`(j, j+1)` with `j` even and `j ≥ 2` holds X/Y at both positions, else
3 if the axis holds any X/Y, else 0), both functions of the axis only. -/
theorem spc_compact_translation_one_clocks (op : Operator) :
    (spc_compact_translation_one op).2 =
      (if op.axis.countP (fun p => p = Pauli.Y) = 0 then 0
       else if (op.axis.countP fun p => p = Pauli.Y) % 2 = 1 then 1 else 2) +
      (if needs_two_rounds_pairs op.axis then 6
       else if op.axis.any isXY = true then 3 else 0) := by
  have hflags := sctoLoop_flags op.axis op.axis.length 0 (by omega) (by omega)
  have hxy : (sctoLoop op.axis 0).2.1 = op.axis.any isXY := by
    rw [hflags.1, List.drop_zero]
  have hntr : ((sctoLoop op.axis 0).2.2 = true) ↔
      needs_two_rounds_pairs op.axis := by
    rw [hflags.2]
    unfold needs_two_rounds_pairs
    constructor
    · rintro ⟨j, _, h⟩
      exact ⟨j, h⟩
    · rintro ⟨j, h⟩
      exact ⟨j, by omega, h⟩
  unfold spc_compact_translation_one yElim
  dsimp only
  congr 1
  · split_ifs <;> rfl
  · by_cases hP : needs_two_rounds_pairs op.axis
    · have h2 : (sctoLoop op.axis 0).2.2 = true := hntr.mpr hP
      simp [h2, hP]
    · have h2 : ¬ ((sctoLoop op.axis 0).2.2 = true) := fun h => hP (hntr.mp h)
      simp only [Bool.not_eq_true] at h2
      simp [h2, hP, hxy]

/-- The Y-positions-to-X rewrite that Y elimination effects on an axis. -/
def mapYtoX (a : Axis) : Axis :=
  a.map fun p => if p = Pauli.Y then Pauli.X else p

/-- The first-Y-to-X rewrite that the first partial XY permutation
effects on an axis. -/
def setFirstYtoX : Axis → Axis
  | [] => []
  | Pauli.Y :: rest => Pauli.X :: rest
  | p :: rest => p :: setFirstYtoX rest

theorem firstYMask_false (a : Axis) :
    firstYMask false a = List.replicate a.length Pauli.I := by
  induction a with
  | nil => rfl
  | cons p rest ih =>
      rw [List.length_cons, List.replicate_succ]
      cases p <;> exact congrArg (List.cons Pauli.I) ih

theorem restYMask_false (a : Axis) : restYMask false a = yMaskAxis a := by
  induction a with
  | nil => rfl
  | cons p rest ih =>
      cases p
      · exact congrArg (List.cons Pauli.I) ih
      · exact congrArg (List.cons Pauli.I) ih
      · exact congrArg (List.cons Pauli.Z) ih
      · exact congrArg (List.cons Pauli.I) ih

theorem zipWith_mul_replicate (a : Axis) :
    a.zipWith Pauli.mul (List.replicate a.length Pauli.I) = a := by
  induction a with
  | nil => rfl
  | cons p rest ih =>
      rw [List.length_cons, List.replicate_succ]
      cases p
      · exact congrArg (List.cons Pauli.I) ih
      · exact congrArg (List.cons Pauli.X) ih
      · exact congrArg (List.cons Pauli.Y) ih
      · exact congrArg (List.cons Pauli.Z) ih

theorem anticount_replicate (a : Axis) :
    ((a.zip (List.replicate a.length Pauli.I)).countP
      fun p => !p.1.commutes_with p.2) = 0 := by
  induction a with
  | nil => rfl
  | cons p rest ih =>
      rw [List.length_cons, List.replicate_succ, List.zip_cons_cons,
        List.countP_cons, ih]
      cases p <;> rfl

theorem zipWith_mul_yMask (a : Axis) :
    a.zipWith Pauli.mul (yMaskAxis a) = mapYtoX a := by
  induction a with
  | nil => rfl
  | cons p rest ih =>
      cases p
      · exact congrArg (List.cons Pauli.I) ih
      · exact congrArg (List.cons Pauli.X) ih
      · exact congrArg (List.cons Pauli.X) ih
      · exact congrArg (List.cons Pauli.Z) ih

theorem anticount_yMask (a : Axis) :
    ((a.zip (yMaskAxis a)).countP fun p => !p.1.commutes_with p.2) =
      a.countP fun p => p = Pauli.Y := by
  induction a with
  | nil => rfl
  | cons p rest ih =>
      simp only [yMaskAxis, List.map_cons] at ih ⊢
      cases p <;>
        · rw [List.zip_cons_cons, List.countP_cons, List.countP_cons, ih]
          rfl

theorem zipWith_mul_firstYMask (a : Axis) :
    a.zipWith Pauli.mul (firstYMask true a) = setFirstYtoX a := by
  induction a with
  | nil => rfl
  | cons p rest ih =>
      cases p
      · exact congrArg (List.cons Pauli.I) ih
      · exact congrArg (List.cons Pauli.X) ih
      · refine congrArg (List.cons Pauli.X) ?_
        rw [firstYMask_false, zipWith_mul_replicate]
      · exact congrArg (List.cons Pauli.Z) ih

theorem anticount_firstYMask (a : Axis) :
    ((a.zip (firstYMask true a)).countP fun p => !p.1.commutes_with p.2) =
      if (a.countP fun p => p = Pauli.Y) = 0 then 0 else 1 := by
  induction a with
  | nil => rfl
  | cons p rest ih =>
      cases p
      case Y =>
        show (((Pauli.Y, Pauli.Z) :: rest.zip (firstYMask false rest)).countP
            fun p => !p.1.commutes_with p.2) = _
        rw [List.countP_cons, firstYMask_false, anticount_replicate,
          List.countP_cons]
        simp
        rfl
      all_goals
        · show ((_ :: rest.zip (firstYMask true rest)).countP
              fun p => !p.1.commutes_with p.2) = _
          rw [List.countP_cons, ih, List.countP_cons]
          simp
          rfl

theorem zipWith_mul_restYMask (a : Axis) :
    (setFirstYtoX a).zipWith Pauli.mul (restYMask true a) = mapYtoX a := by
  induction a with
  | nil => rfl
  | cons p rest ih =>
      cases p
      · exact congrArg (List.cons Pauli.I) ih
      · exact congrArg (List.cons Pauli.X) ih
      · refine congrArg (List.cons Pauli.X) ?_
        rw [restYMask_false, zipWith_mul_yMask]
        rfl
      · exact congrArg (List.cons Pauli.Z) ih

theorem anticount_restYMask (a : Axis) :
    (((setFirstYtoX a).zip (restYMask true a)).countP
      fun p => !p.1.commutes_with p.2) =
      (a.countP fun p => p = Pauli.Y) - 1 := by
  induction a with
  | nil => rfl
  | cons p rest ih =>
      cases p
      case Y =>
        show (((Pauli.X, Pauli.I) :: rest.zip (restYMask false rest)).countP
            fun p => !p.1.commutes_with p.2) = _
        rw [List.countP_cons, restYMask_false, anticount_yMask,
          List.countP_cons]
        simp
        rfl
      all_goals
        · show ((_ :: (setFirstYtoX rest).zip (restYMask true rest)).countP
              fun p => !p.1.commutes_with p.2) = _
          rw [List.countP_cons, ih, List.countP_cons]
          simp
          rfl

theorem mapYtoX_of_no_y (a : Axis)
    (h : (a.countP fun p => p = Pauli.Y) = 0) : mapYtoX a = a := by
  induction a with
  | nil => rfl
  | cons p rest ih =>
      rw [List.countP_cons] at h
      cases p
      · exact congrArg (List.cons Pauli.I) (ih (by omega))
      · exact congrArg (List.cons Pauli.X) (ih (by omega))
      · simp at h
      · exact congrArg (List.cons Pauli.Z) (ih (by omega))

/-- `transform` by a commuting Clifford is a no-op. -/
theorem transform_of_commutes (r c : PauliRotation)
    (h : r.axis.commutes_with c.axis = true) : r.transform c = r := by
  simp [PauliRotation.transform, h]

/-- `transform` by an anticommuting `PiOver8(2)` Clifford multiplies the
axes positionwise. -/
theorem transform_two_axis (r c : PauliRotation)
    (hc : c.angle = Angle.piOver8 .two)
    (h : r.axis.commutes_with c.axis = false) :
    (r.transform c).axis = r.axis.zipWith Pauli.mul c.axis := by
  simp only [PauliRotation.transform, h, Bool.false_eq_true, if_false, hc]

/-- Y elimination rewrites every `Y` of the axis to `X`. -/
theorem yElim_fold_axis (a : Axis) (ang : Angle) :
    (applyCliffordsFwd ⟨a, ang⟩ (yElim a).1).axis = mapYtoX a := by
  unfold yElim
  dsimp only
  by_cases h0 : (a.countP fun p => p = Pauli.Y) = 0
  · rw [if_pos h0]
    exact (mapYtoX_of_no_y a h0).symm
  · rw [if_neg h0]
    by_cases h1 : (a.countP fun p => p = Pauli.Y) % 2 = 1
    · rw [if_pos h1]
      show (PauliRotation.transform ⟨a, ang⟩
        ⟨yMaskAxis a, .piOver8 .two⟩).axis = _
      have hcomm : Axis.commutes_with a (yMaskAxis a) = false := by
        unfold Axis.commutes_with
        rw [anticount_yMask, h1]
        rfl
      rw [transform_two_axis _ _ rfl hcomm]
      exact zipWith_mul_yMask a
    · rw [if_neg h1]
      show (PauliRotation.transform
        (PauliRotation.transform ⟨a, ang⟩ ⟨firstYMask true a, .piOver8 .two⟩)
        ⟨restYMask true a, .piOver8 .two⟩).axis = _
      have hcomm1 : Axis.commutes_with a (firstYMask true a) = false := by
        unfold Axis.commutes_with
        rw [anticount_firstYMask, if_neg h0]
        rfl
      have hax1 : (PauliRotation.transform ⟨a, ang⟩
          ⟨firstYMask true a, .piOver8 .two⟩).axis = setFirstYtoX a := by
        rw [transform_two_axis _ _ rfl hcomm1]
        exact zipWith_mul_firstYMask a
      have hcomm2 : Axis.commutes_with
          (PauliRotation.transform ⟨a, ang⟩
            ⟨firstYMask true a, .piOver8 .two⟩).axis (restYMask true a) =
          false := by
        rw [hax1]
        unfold Axis.commutes_with
        rw [anticount_restYMask]
        have hodd : ((a.countP fun p => p = Pauli.Y) - 1) % 2 = 1 := by omega
        rw [hodd]
        rfl
      rw [transform_two_axis _ _ rfl hcomm2, hax1]
      exact zipWith_mul_restYMask a

theorem getD_set_self (l : List Pauli) (j : Nat) (x d : Pauli)
    (h : j < l.length) : (l.set j x).getD j d = x := by
  rw [List.getD_eq_getElem?_getD, List.getElem?_set_eq_of_lt x h]
  rfl

theorem getD_set_ne (l : List Pauli) (i j : Nat) (x d : Pauli)
    (h : i ≠ j) : (l.set i x).getD j d = l.getD j d := by
  rw [List.getD_eq_getElem?_getD, List.getElem?_set_ne h,
    ← List.getD_eq_getElem?_getD]

theorem anticount_new_with_pauli (b : Axis) :
    ∀ j (p : Pauli), j < b.length →
    ((b.zip (Axis.new_with_pauli j b.length p)).countP
      fun q => !q.1.commutes_with q.2) =
      if (b.getD j Pauli.I).commutes_with p then 0 else 1 := by
  induction b with
  | nil =>
      intro j p hj
      cases hj
  | cons x bs ih =>
      intro j p hj
      cases j with
      | zero =>
          show (((x, p) :: bs.zip (List.replicate bs.length Pauli.I)).countP
            fun q => !q.1.commutes_with q.2) = _
          rw [List.countP_cons, anticount_replicate]
          show (0 + if (!x.commutes_with p) = true then 1 else 0) =
            if x.commutes_with p = true then 0 else 1
          by_cases h : x.commutes_with p = true
          · rw [h]
            rfl
          · rw [Bool.not_eq_true] at h
            rw [h]
            rfl
      | succ j =>
          show (((x, Pauli.I) :: bs.zip (Axis.new_with_pauli j bs.length p)).countP
            fun q => !q.1.commutes_with q.2) = _
          rw [List.countP_cons, ih j p (by simpa using hj)]
          have hx : x.commutes_with Pauli.I = true := by cases x <;> rfl
          show _ + (if (!x.commutes_with Pauli.I) = true then 1 else 0) = _
          rw [hx]
          rfl

theorem zipWith_mul_new_with_pauli (b : Axis) :
    ∀ j (p : Pauli), j < b.length →
    b.zipWith Pauli.mul (Axis.new_with_pauli j b.length p) =
      b.set j (Pauli.mul (b.getD j Pauli.I) p) := by
  induction b with
  | nil =>
      intro j p hj
      cases hj
  | cons x bs ih =>
      intro j p hj
      cases j with
      | zero =>
          show Pauli.mul x p :: bs.zipWith Pauli.mul
              (List.replicate bs.length Pauli.I) = _
          rw [zipWith_mul_replicate]
          rfl
      | succ j =>
          show Pauli.mul x Pauli.I ::
              bs.zipWith Pauli.mul (Axis.new_with_pauli j bs.length p) = _
          rw [ih j p (by simpa using hj)]
          cases x <;> rfl

theorem commutes_with_new_with_pauli (b : Axis) (j : Nat) (p : Pauli)
    (hj : j < b.length) :
    Axis.commutes_with b (Axis.new_with_pauli j b.length p) =
      (b.getD j Pauli.I).commutes_with p := by
  unfold Axis.commutes_with
  rw [anticount_new_with_pauli b j p hj]
  by_cases h : (b.getD j Pauli.I).commutes_with p = true
  · rw [if_pos h, h]
    rfl
  · rw [Bool.not_eq_true] at h
    rw [if_neg (by rw [h]; exact Bool.false_ne_true), h]
    rfl

/-- Conjugation by a single-qubit `PiOver8(2)` Clifford at position `j`
either leaves the axis unchanged (when the position commutes) or
multiplies position `j` by the Clifford's Pauli. -/
theorem transform_new_with_pauli_axis (r : PauliRotation) (j n : Nat)
    (p : Pauli) (hn : r.axis.length = n) (hj : j < n) :
    (r.transform ⟨Axis.new_with_pauli j n p, Angle.piOver8 .two⟩).axis =
      if (r.axis.getD j Pauli.I).commutes_with p then r.axis
      else r.axis.set j (Pauli.mul (r.axis.getD j Pauli.I) p) := by
  subst hn
  by_cases h : (r.axis.getD j Pauli.I).commutes_with p = true
  · rw [if_pos h, transform_of_commutes]
    rw [commutes_with_new_with_pauli r.axis j p hj, h]
  · rw [Bool.not_eq_true] at h
    rw [if_neg (by rw [h]; exact Bool.false_ne_true)]
    rw [transform_two_axis _ _ rfl
      (by rw [commutes_with_new_with_pauli r.axis j p hj, h])]
    exact zipWith_mul_new_with_pauli r.axis j p hj

/-- The three-rotation `Z@j, X@j, Z@j` block sends an `X` at position
`j` to `Z` and leaves every other position unchanged. -/
theorem applyFwd_xzTriple_axis (r : PauliRotation) (j n : Nat)
    (hn : r.axis.length = n) (hj : j < n)
    (hx : r.axis.getD j Pauli.I = Pauli.X) :
    (applyCliffordsFwd r (xzTriple j n)).axis = r.axis.set j Pauli.Z := by
  show (((r.transform ⟨Axis.new_with_pauli j n Pauli.Z, Angle.piOver8 .two⟩).transform
      ⟨Axis.new_with_pauli j n Pauli.X, Angle.piOver8 .two⟩).transform
      ⟨Axis.new_with_pauli j n Pauli.Z, Angle.piOver8 .two⟩).axis = _
  have h1 : (r.transform ⟨Axis.new_with_pauli j n Pauli.Z,
      Angle.piOver8 .two⟩).axis = r.axis.set j Pauli.Y := by
    rw [transform_new_with_pauli_axis r j n Pauli.Z hn hj, hx]
    rfl
  have hl1 : (r.transform ⟨Axis.new_with_pauli j n Pauli.Z,
      Angle.piOver8 .two⟩).axis.length = n := by
    rw [h1, List.length_set, hn]
  have hg1 : (r.transform ⟨Axis.new_with_pauli j n Pauli.Z,
      Angle.piOver8 .two⟩).axis.getD j Pauli.I = Pauli.Y := by
    rw [h1]
    exact getD_set_self _ _ _ _ (by rw [hn]; exact hj)
  have h2 : ((r.transform ⟨Axis.new_with_pauli j n Pauli.Z,
      Angle.piOver8 .two⟩).transform ⟨Axis.new_with_pauli j n Pauli.X,
      Angle.piOver8 .two⟩).axis = r.axis.set j Pauli.Z := by
    rw [transform_new_with_pauli_axis _ j n Pauli.X hl1 hj, hg1, h1]
    show (if false = true then _ else _) = _
    rw [if_neg Bool.false_ne_true, List.set_set]
    rfl
  have hl2 : ((r.transform ⟨Axis.new_with_pauli j n Pauli.Z,
      Angle.piOver8 .two⟩).transform ⟨Axis.new_with_pauli j n Pauli.X,
      Angle.piOver8 .two⟩).axis.length = n := by
    rw [h2, List.length_set, hn]
  have hg2 : ((r.transform ⟨Axis.new_with_pauli j n Pauli.Z,
      Angle.piOver8 .two⟩).transform ⟨Axis.new_with_pauli j n Pauli.X,
      Angle.piOver8 .two⟩).axis.getD j Pauli.I = Pauli.Z := by
    rw [h2]
    exact getD_set_self _ _ _ _ (by rw [hn]; exact hj)
  rw [transform_new_with_pauli_axis _ j n Pauli.Z hl2 hj, hg2, h2]
  rfl

theorem isXY_def (q : Pauli) :
    decide (q = Pauli.X ∨ q = Pauli.Y) = isXY q := rfl

theorem applyCliffordsFwd_append (r : PauliRotation)
    (l1 l2 : List PauliRotation) :
    applyCliffordsFwd r (l1 ++ l2) =
      applyCliffordsFwd (applyCliffordsFwd r l1) l2 :=
  List.foldl_append _ _ _ _

/-- A conditional `Z@j, X@j, Z@j` block: sends position `j` to `Z` when
the guard holds, no-op otherwise. -/
theorem applyFwd_condTriple_axis (r : PauliRotation) (j n : Nat)
    (hn : r.axis.length = n) (hj : j < n) (g : Bool)
    (hx : g = true → r.axis.getD j Pauli.I = Pauli.X) :
    (applyCliffordsFwd r (if g = true then xzTriple j n else [])).axis =
      if g = true then r.axis.set j Pauli.Z else r.axis := by
  by_cases h : g = true
  · rw [if_pos h, if_pos h]
    exact applyFwd_xzTriple_axis r j n hn hj (hx h)
  · rw [if_neg h, if_neg h]
    rfl

/-- The Cliffords pushed by the position loop from an even index `i`
turn every X at a position `≥ i` (as predicted by the input axis `a`)
into `Z` and leave all other positions unchanged. -/
theorem sctoLoop_fold (a : Axis) :
    ∀ k i (r : PauliRotation), a.length - i ≤ k → i % 2 = 0 →
    r.axis.length = a.length →
    (∀ j, i ≤ j → j < a.length → isXY (a.getD j Pauli.I) = true →
      r.axis.getD j Pauli.I = Pauli.X) →
    (applyCliffordsFwd r (sctoLoop a i).1).axis.length = a.length ∧
    ∀ j, j < a.length →
      (applyCliffordsFwd r (sctoLoop a i).1).axis.getD j Pauli.I =
        (if i ≤ j ∧ isXY (a.getD j Pauli.I) = true then Pauli.Z
         else r.axis.getD j Pauli.I) := by
  intro k
  induction k with
  | zero =>
      intro i r hk hi hlen hX
      have hge : ¬ i < a.length := by omega
      rw [sctoLoop_past_end a i hge]
      refine ⟨hlen, ?_⟩
      intro j hj
      rw [if_neg]
      · rfl
      · rintro ⟨h1, _⟩
        omega
  | succ k ih =>
      intro i r hk hi hlen hX
      by_cases hlt : i < a.length
      · have hodd : ¬ i % 2 = 1 := by omega
        rw [sctoLoop]
        simp only [hlt, if_true, hodd, if_false]
        by_cases hbreak : i = a.length - 1
        · simp only [if_pos hbreak]
          rw [isXY_def]
          have hlen1 : a.length = i + 1 := by omega
          rw [applyFwd_condTriple_axis r i a.length hlen hlt
            (isXY (a.getD i Pauli.I)) (fun h => hX i (le_refl i) hlt h)]
          by_cases haxy : isXY (a.getD i Pauli.I) = true
          · rw [if_pos haxy]
            refine ⟨by rw [List.length_set, hlen], ?_⟩
            intro j hj
            by_cases hji : j = i
            · subst hji
              rw [getD_set_self _ _ _ _ (by omega), if_pos ⟨le_refl j, haxy⟩]
            · rw [getD_set_ne _ _ _ _ _ (fun h => hji h.symm), if_neg]
              rintro ⟨h1, _⟩
              omega
          · rw [if_neg haxy]
            refine ⟨hlen, ?_⟩
            intro j hj
            rw [if_neg]
            rintro ⟨h1, h2⟩
            have hji : j = i := by omega
            subst hji
            exact haxy h2
        · simp only [if_neg hbreak]
          rw [isXY_def, isXY_def]
          have hlt1 : i + 1 < a.length := by omega
          rw [sctoLoop_odd a (i + 1) (by omega)]
          rw [applyCliffordsFwd_append, applyCliffordsFwd_append]
          have h1 := applyFwd_condTriple_axis r i a.length hlen hlt
            (isXY (a.getD i Pauli.I)) (fun h => hX i (le_refl i) hlt h)
          have hlen1 : (applyCliffordsFwd r
              (if isXY (a.getD i Pauli.I) = true then xzTriple i a.length
               else [])).axis.length = a.length := by
            rw [h1]
            by_cases h : isXY (a.getD i Pauli.I) = true
            · rw [if_pos h, List.length_set, hlen]
            · rw [if_neg h, hlen]
          have hget1 : ∀ j, j ≠ i → (applyCliffordsFwd r
              (if isXY (a.getD i Pauli.I) = true then xzTriple i a.length
               else [])).axis.getD j Pauli.I = r.axis.getD j Pauli.I := by
            intro j hji
            rw [h1]
            by_cases h : isXY (a.getD i Pauli.I) = true
            · rw [if_pos h, getD_set_ne _ _ _ _ _ (fun h' => hji h'.symm)]
            · rw [if_neg h]
          have hget1i : (applyCliffordsFwd r
              (if isXY (a.getD i Pauli.I) = true then xzTriple i a.length
               else [])).axis.getD i Pauli.I =
              (if isXY (a.getD i Pauli.I) = true then Pauli.Z
               else r.axis.getD i Pauli.I) := by
            rw [h1]
            by_cases h : isXY (a.getD i Pauli.I) = true
            · rw [if_pos h, if_pos h, getD_set_self _ _ _ _ (by omega)]
            · rw [if_neg h, if_neg h]
          set r1 := applyCliffordsFwd r
            (if isXY (a.getD i Pauli.I) = true then xzTriple i a.length
             else []) with hr1
          have h2 := applyFwd_condTriple_axis r1 (i + 1) a.length hlen1 hlt1
            (isXY (a.getD (i + 1) Pauli.I))
            (fun h => by
              rw [hget1 (i + 1) (by omega)]
              exact hX (i + 1) (by omega) hlt1 h)
          have hlen2 : (applyCliffordsFwd r1
              (if isXY (a.getD (i + 1) Pauli.I) = true then
                 xzTriple (i + 1) a.length else [])).axis.length =
              a.length := by
            rw [h2]
            by_cases h : isXY (a.getD (i + 1) Pauli.I) = true
            · rw [if_pos h, List.length_set, hlen1]
            · rw [if_neg h, hlen1]
          have hget2 : ∀ j, j ≠ i + 1 → (applyCliffordsFwd r1
              (if isXY (a.getD (i + 1) Pauli.I) = true then
                 xzTriple (i + 1) a.length else [])).axis.getD j Pauli.I =
              r1.axis.getD j Pauli.I := by
            intro j hji
            rw [h2]
            by_cases h : isXY (a.getD (i + 1) Pauli.I) = true
            · rw [if_pos h, getD_set_ne _ _ _ _ _ (fun h' => hji h'.symm)]
            · rw [if_neg h]
          have hget2i : (applyCliffordsFwd r1
              (if isXY (a.getD (i + 1) Pauli.I) = true then
                 xzTriple (i + 1) a.length else [])).axis.getD (i + 1)
                Pauli.I =
              (if isXY (a.getD (i + 1) Pauli.I) = true then Pauli.Z
               else r1.axis.getD (i + 1) Pauli.I) := by
            rw [h2]
            by_cases h : isXY (a.getD (i + 1) Pauli.I) = true
            · rw [if_pos h, if_pos h, getD_set_self _ _ _ _ (by omega)]
            · rw [if_neg h, if_neg h]
          set r2 := applyCliffordsFwd r1
            (if isXY (a.getD (i + 1) Pauli.I) = true then
               xzTriple (i + 1) a.length else []) with hr2
          have hX2 : ∀ j, i + 2 ≤ j → j < a.length →
              isXY (a.getD j Pauli.I) = true →
              r2.axis.getD j Pauli.I = Pauli.X := by
            intro j hij hj hxy
            rw [hget2 j (by omega), hget1 j (by omega)]
            exact hX j (by omega) hj hxy
          have hIH := ih (i + 2) r2 (by omega) (by omega) hlen2 hX2
          refine ⟨hIH.1, ?_⟩
          intro j hj
          rw [hIH.2 j hj]
          by_cases hc : isXY (a.getD j Pauli.I) = true
          · by_cases hij : i + 2 ≤ j
            · rw [if_pos ⟨hij, hc⟩, if_pos ⟨by omega, hc⟩]
            · rw [if_neg (fun hcc => hij hcc.1)]
              by_cases hji : j = i
              · subst hji
                rw [hget2 j (by omega), hget1i, if_pos hc,
                  if_pos ⟨le_refl j, hc⟩]
              · by_cases hji1 : j = i + 1
                · subst hji1
                  rw [hget2i, if_pos hc, if_pos ⟨by omega, hc⟩]
                · have hjlt : j < i := by omega
                  rw [hget2 j (by omega), hget1 j (by omega), if_neg]
                  rintro ⟨hc1, _⟩
                  omega
          · rw [if_neg (fun hcc => hc hcc.2), if_neg (fun hcc => hc hcc.2)]
            by_cases hji : j = i
            · subst hji
              rw [hget2 j (by omega), hget1i, if_neg hc]
            · by_cases hji1 : j = i + 1
              · subst hji1
                rw [hget2i, if_neg hc, hget1 (i + 1) (by omega)]
              · rw [hget2 j (by omega), hget1 j (by omega)]
      · have hge : ¬ i < a.length := hlt
        rw [sctoLoop_past_end a i hge]
        refine ⟨hlen, ?_⟩
        intro j hj
        rw [if_neg]
        · rfl
        · rintro ⟨h1, _⟩
          omega

/-- Applying the Cliffords produced by `spc_compact_translation_one` to
a rotation on the same axis (in order, via `transform`) yields an axis
made only of `Z` and `I`. -/
theorem scto_cliffords_normalize (op : Operator) (ang : Angle) :
    Axis.has_only_z_and_i
      (applyCliffordsFwd ⟨op.axis, ang⟩
        (spc_compact_translation_one op).1).axis = true := by
  have hsplit : (spc_compact_translation_one op).1 =
      (yElim op.axis).1 ++ (sctoLoop op.axis 0).1 := rfl
  rw [hsplit, applyCliffordsFwd_append]
  have hax1 : (applyCliffordsFwd ⟨op.axis, ang⟩ (yElim op.axis).1).axis =
      mapYtoX op.axis := yElim_fold_axis op.axis ang
  have hlen1 : (applyCliffordsFwd ⟨op.axis, ang⟩
      (yElim op.axis).1).axis.length = op.axis.length := by
    rw [hax1]
    exact List.length_map _ _
  have hmapget : ∀ j, (mapYtoX op.axis).getD j Pauli.I =
      (if op.axis.getD j Pauli.I = Pauli.Y then Pauli.X
       else op.axis.getD j Pauli.I) := by
    intro j
    unfold mapYtoX
    rw [List.getD_eq_getElem?_getD, List.getElem?_map,
      List.getD_eq_getElem?_getD]
    cases op.axis[j]? <;> rfl
  have hX1 : ∀ j, 0 ≤ j → j < op.axis.length →
      isXY (op.axis.getD j Pauli.I) = true →
      (applyCliffordsFwd ⟨op.axis, ang⟩ (yElim op.axis).1).axis.getD j
        Pauli.I = Pauli.X := by
    intro j _ hj hxy
    rw [hax1, hmapget j]
    have hor : op.axis.getD j Pauli.I = Pauli.X ∨
        op.axis.getD j Pauli.I = Pauli.Y := by
      simpa [isXY] using hxy
    rcases hor with h | h
    · rw [h]
      rfl
    · rw [h]
      rfl
  obtain ⟨hflen, hfget⟩ := sctoLoop_fold op.axis op.axis.length 0
    (applyCliffordsFwd ⟨op.axis, ang⟩ (yElim op.axis).1)
    (by omega) (by omega) hlen1 hX1
  rw [Axis.has_only_z_and_i, List.all_eq_true]
  intro p hp
  rw [List.mem_iff_getElem] at hp
  obtain ⟨j, hj, hpj⟩ := hp
  have hjlen : j < op.axis.length := by
    rw [← hflen]
    exact hj
  have hval : (applyCliffordsFwd
      (applyCliffordsFwd ⟨op.axis, ang⟩ (yElim op.axis).1)
      (sctoLoop op.axis 0).1).axis.getD j Pauli.I = p := by
    rw [List.getD_eq_getElem _ _ hj, hpj]
  rw [hfget j hjlen] at hval
  by_cases hc : isXY (op.axis.getD j Pauli.I) = true
  · rw [if_pos ⟨Nat.zero_le j, hc⟩] at hval
    rw [← hval]
    rfl
  · rw [if_neg (fun hcc => hc hcc.2), hax1, hmapget j] at hval
    cases hh : op.axis.getD j Pauli.I with
    | I =>
        rw [hh, if_neg (by decide)] at hval
        rw [← hval]
        rfl
    | X => exact absurd (by rw [hh]; rfl) hc
    | Y => exact absurd (by rw [hh]; rfl) hc
    | Z =>
        rw [hh, if_neg (by decide)] at hval
        rw [← hval]
        rfl

/-- Concrete evaluation: the compact translation of a single `X`-axis
π/8 rotation emits the operator unchanged (axis still `X`), with 3
clocks. -/
theorem compact_single_x_eval :
    spc_compact_translation
      [Operator.pauliRotation ⟨[Pauli.X], Angle.piOver8 .one⟩] =
      [(Operator.pauliRotation ⟨[Pauli.X], Angle.piOver8 .one⟩, 3)] := by
  have h1 : spc_translation
      [Operator.pauliRotation ⟨[Pauli.X], Angle.piOver8 .one⟩] =
      [Operator.pauliRotation ⟨[Pauli.X], Angle.piOver8 .one⟩] := by decide
  have h2 : sctoLoop [Pauli.X] 0 = (xzTriple 0 1, true, false) := by
    rw [sctoLoop]
    simp
  have h3 : spc_compact_translation_one
      (Operator.pauliRotation ⟨[Pauli.X], Angle.piOver8 .one⟩) =
      (xzTriple 0 1, 3) := by
    show ((yElim [Pauli.X]).1 ++ (sctoLoop [Pauli.X] 0).1,
      (yElim [Pauli.X]).2 + if (sctoLoop [Pauli.X] 0).2.2 = true then 6
        else if (sctoLoop [Pauli.X] 0).2.1 = true then 3 else 0) =
      (xzTriple 0 1, 3)
    rw [h2]
    rfl
  show compactGo (spc_translation
    [Operator.pauliRotation ⟨[Pauli.X], Angle.piOver8 .one⟩]) [] = _
  rw [h1]
  simp only [compactGo, applyCliffordsFwd, List.foldl_nil, h3]

/-- Counterexample to C2 as stated: the compact translation of
`[Rot(X, PiOver8(1))]` emits an operator whose axis is `[X]`, which is
not made only of `I` and `Z`. -/
theorem compact_axes_counterexample :
    spc_compact_translation
      [Operator.pauliRotation ⟨[Pauli.X], Angle.piOver8 .one⟩] =
      [(Operator.pauliRotation ⟨[Pauli.X], Angle.piOver8 .one⟩, 3)] ∧
    Axis.has_only_z_and_i
      (Operator.pauliRotation ⟨[Pauli.X], Angle.piOver8 .one⟩).axis =
      false :=
  ⟨compact_single_x_eval, rfl⟩

/-- C2 amended: the axis of an operator emitted by
`spc_compact_translation` need not be `Z/I`; instead, conjugating a
rotation on that axis by the Cliffords that
`spc_compact_translation_one` produces for it (in order) yields an
axis whose every position is `I` or `Z`. -/
theorem spc_compact_translation_axes_normalized (ops : List Operator)
    (p : Operator × Nat) (hmem : p ∈ spc_compact_translation ops)
    (ang : Angle) :
    Axis.has_only_z_and_i
      (applyCliffordsFwd ⟨p.1.axis, ang⟩
        (spc_compact_translation_one p.1).1).axis = true :=
  scto_cliffords_normalize p.1 ang

/-- Witness for the amended C2 at a concrete input. -/
theorem spc_compact_translation_axes_normalized_witness :
    Axis.has_only_z_and_i
      (applyCliffordsFwd
        ⟨(Operator.pauliRotation ⟨[Pauli.X], Angle.piOver8 .one⟩,
            3).1.axis, Angle.piOver8 .one⟩
        (spc_compact_translation_one
          (Operator.pauliRotation ⟨[Pauli.X], Angle.piOver8 .one⟩,
            3).1).1).axis = true :=
  spc_compact_translation_axes_normalized
    [Operator.pauliRotation ⟨[Pauli.X], Angle.piOver8 .one⟩]
    (Operator.pauliRotation ⟨[Pauli.X], Angle.piOver8 .one⟩, 3)
    (by rw [compact_single_x_eval]; exact List.mem_singleton.mpr rfl)
    (Angle.piOver8 .one)

/-- Counterexample to C9 as stated: a stream holding only a
gate-definition node passes the unsupported-node check (so it does not
abort; the node is filtered out), while a stream holding an `if` node
is rejected by the check (so it is not "silently dropped"). -/
theorem extract_unsupported_counterexample :
    extract_check_and_filter [AstNode.gate] = some [] ∧
    extract_check_and_filter [AstNode.ifNode] = none := by
  refine ⟨rfl, rfl⟩

/-- C9 amended: a node stream containing a barrier, opaque, or `if`
node makes `extract` abort with a diagnostic (and only such streams
abort at the check); gate-definition nodes pass the check as known but
unhandled and are silently dropped from the node stream by the
subsequent filter. -/
theorem extract_unsupported_nodes (nodes : List AstNode) :
    (extract_check_and_filter nodes = none ↔
      ∃ n ∈ nodes, n = AstNode.barrier ∨ n = AstNode.opaqueNode ∨
        n = AstNode.ifNode) ∧
    ∀ l, extract_check_and_filter nodes = some l →
      l = nodes.filter nodeKept ∧ ∀ n ∈ l, n ≠ AstNode.gate := by
  constructor
  · unfold extract_check_and_filter
    by_cases h : nodes.all nodeSupported
    · rw [if_pos h]
      constructor
      · intro hcontra
        exact absurd hcontra (Option.some_ne_none _)
      · rintro ⟨n, hn, hcase⟩
        rw [List.all_eq_true] at h
        have hs := h n hn
        rcases hcase with h1 | h1 | h1 <;> rw [h1] at hs <;> cases hs
    · rw [if_neg h]
      constructor
      · intro _
        rw [List.all_eq_true] at h
        push_neg at h
        obtain ⟨n, hn, hns⟩ := h
        refine ⟨n, hn, ?_⟩
        cases n <;> first
          | (exact absurd rfl hns)
          | (exact Or.inl rfl)
          | (exact Or.inr (Or.inl rfl))
          | (exact Or.inr (Or.inr rfl))
      · intro _
        rfl
  · intro l hl
    unfold extract_check_and_filter at hl
    by_cases h : nodes.all nodeSupported
    · rw [if_pos h] at hl
      have hleq : l = nodes.filter nodeKept := (Option.some.injEq _ _).mp hl.symm
      refine ⟨hleq, ?_⟩
      intro n hn hgate
      rw [hleq] at hn
      have hkept := List.of_mem_filter hn
      rw [hgate] at hkept
      cases hkept
    · rw [if_neg h] at hl
      cases hl

/-- Witness for the amended C9 at a concrete input. -/
theorem extract_unsupported_nodes_witness :
    extract_check_and_filter [AstNode.barrier] = none :=
  (extract_unsupported_nodes [AstNode.barrier]).1.mpr
    ⟨AstNode.barrier, by simp, Or.inl rfl⟩

/-- C10: whenever the decomposition stage succeeds but the SPC
translation result is empty (for example, registers declared but only
Clifford gates applied), `extract` reaches the `result[0]` access on an
empty vector — a panic — instead of returning a value or a
diagnostic. -/
theorem extract_empty_result_panics (nodes : List AstNode)
    (ops : List Operator) (hops : buildOps nodes = some ops)
    (hempty : spc_translation ops = []) :
    extract nodes = ExtractOutcome.panicked := by
  unfold extract
  simp only [hops, hempty]

/-- Witness for C10: a two-qubit register with a single `h` gate
(purely Clifford) drives `extract` into the panic. -/
theorem extract_empty_result_panics_witness :
    extract [AstNode.qreg "q" 2,
      AstNode.applyGate "h" [Argument.qubit "q" 0] []] =
      ExtractOutcome.panicked :=
  extract_empty_result_panics
    [AstNode.qreg "q" 2, AstNode.applyGate "h" [Argument.qubit "q" 0] []]
    [Operator.pauliRotation ⟨[Pauli.Z, Pauli.I], Angle.piOver8 .two⟩,
     Operator.pauliRotation ⟨[Pauli.X, Pauli.I], Angle.piOver8 .two⟩,
     Operator.pauliRotation ⟨[Pauli.Z, Pauli.I], Angle.piOver8 .two⟩]
    (by decide) (by decide)
